import Mathlib

/-!
Verification development for the SEM Figure Maker collection engine
(`collections.py`): containment inference, bounding-box geometry,
collection grouping, color assignment and (de)serialization.

Modelling conventions:
* Metadata records are Python dicts; the geometry fields and the
  `"Mag(pol)"` magnification are modelled as `Option ℚ` fields (absent
  key = `none`).  All arithmetic in the source is on Python floats; it
  is embedded exactly over `ℚ` (the literal `0.05` is embedded as
  `5/100`).
* A metadata *map* is an association list `List (String × Meta)` in the
  dict's insertion order (Python dicts preserve insertion order, and
  `sorted` is stable, so key order matters for tie-breaking).
* Python functions that can raise are embedded as `Option`-returning
  functions (`none` = exception).
-/

namespace SemFig

/-- A per-image metadata record.  Only the fields the core reads are
modelled; all other acquisition attributes are carried opaquely by the
source and never inspected. -/
structure Meta where
  fovW : Option ℚ
  fovH : Option ℚ
  posX : Option ℚ
  posY : Option ℚ
  mag  : Option ℚ
deriving DecidableEq, Repr

/-- The `all(k in meta for k in [...])` presence check on the four
geometry fields (`collections.py` lines 258-259 and 274-275). -/
def hasGeom (m : Meta) : Bool :=
  m.fovW.isSome && m.fovH.isSome && m.posX.isSome && m.posY.isSome

/-- The sort key `image_metadata[x].get("Mag(pol)", 0)` used by both
`analyze_images` (line 166) and `_analyze_containment` (line 251). -/
def magKey (m : Meta) : ℚ :=
  m.mag.getD 0

/-- Stable insertion into a list sorted by `f` (new element goes before
the first strictly greater element, i.e. after existing ties). -/
def insortBy (f : α → ℚ) (x : α) : List α → List α
  | [] => [x]
  | y :: ys => if f x ≤ f y then x :: y :: ys else y :: insortBy f x ys

/-- Stable sort by `f`, embedding Python's stable `sorted(..., key=f)`. -/
def sortBy (f : α → ℚ) (l : List α) : List α :=
  l.foldr (insortBy f) []

/-- The per-axis containment test of `_analyze_containment`
(lines 286-305): parent extent expanded by a margin of 5% of the parent
field of view must strictly contain the child extent. -/
def axisContained (pPos pFov cPos cFov : ℚ) : Bool :=
  decide (pPos - pFov/2 - pFov * (5/100) < cPos - cFov/2) &&
  decide (pPos + pFov/2 + pFov * (5/100) > cPos + cFov/2)

/-- Full containment check for a (parent, child) record pair
(lines 302-307): both axes must pass.  It is only ever invoked after
`hasGeom` holds for both records, so the `getD 0` defaults are never
exercised. -/
def containedIn (p c : Meta) : Bool :=
  axisContained (p.posX.getD 0) (p.fovW.getD 0) (c.posX.getD 0) (c.fovW.getD 0) &&
  axisContained (p.posY.getD 0) (p.fovH.getD 0) (c.posY.getD 0) (c.fovH.getD 0)

/-- The nested loop of `_analyze_containment` (lines 254-311) over the
magnification-sorted list: each entry with geometry collects, from the
strictly-later entries, those with geometry that it contains; entries
with an empty child list are omitted from the map (line 310). -/
def containLoop : List (String × Meta) → List (String × List String)
  | [] => []
  | (k, m) :: rest =>
    if hasGeom m then
      let children := (rest.filter (fun q => hasGeom q.2 && containedIn m q.2)).map Prod.fst
      if children.isEmpty then containLoop rest
      else (k, children) :: containLoop rest
    else containLoop rest

/-- `CollectionManager._analyze_containment` (lines 237-313): sort all
keys by magnification (stable, default 0), then run the directional
pair scan. -/
def analyzeContainment (md : List (String × Meta)) : List (String × List String) :=
  containLoop (sortBy (fun p => magKey p.2) md)

/-- Modelled from the spec's words for claim C2 (the reference
definition the claim compares `_analyze_containment` against): image
keys missing any of the four geometry fields are dropped first; the
remaining keys are sorted ascending by magnification with ties broken
by key order; each later image is listed as a child of an earlier one
iff both axes pass the 5%-margin test; parents with no qualifying child
are omitted. -/
def refLoop : List (String × Meta) → List (String × List String)
  | [] => []
  | (k, m) :: rest =>
    let children := (rest.filter (fun q => containedIn m q.2)).map Prod.fst
    if children.isEmpty then refLoop rest
    else (k, children) :: refLoop rest

/-- Modelled from the spec's words for claim C2: drop, then sort, then
scan directionally. -/
def analyzeContainmentSpec (md : List (String × Meta)) : List (String × List String) :=
  refLoop (sortBy (fun p => magKey p.2) (md.filter (fun p => hasGeom p.2)))

/-- Normalized bounding box `(x1, y1, x2, y2)`. -/
abbrev Box := ℚ × ℚ × ℚ × ℚ

/-- RGBA color components, each 0-255 (alpha 180 in the palette). -/
abbrev Color := ℕ × ℕ × ℕ × ℕ

/-- The `ImageCollection` entity (`collections.py` lines 6-17).  The
Python dicts `metadata`, `containment`, `bounding_boxes`, `colors` are
association lists in dict insertion order. -/
structure ImageCollection where
  name : String
  sessionId : String
  sampleId : String
  images : List String
  metadata : List (String × Meta)
  containment : List (String × List String)
  boundingBoxes : List ((String × String) × Box)
  colors : List (String × Color)
deriving DecidableEq, Repr

/-- `ImageCollection.__init__` / `CollectionManager.create_collection`. -/
def mkCollection (name sessionId sampleId : String) : ImageCollection :=
  ⟨name, sessionId, sampleId, [], [], [], [], []⟩

/-- `ImageCollection.add_image` (lines 19-23): append if absent. -/
def addImage (c : ImageCollection) (k : String) (m : Meta) : ImageCollection :=
  if k ∈ c.images then c
  else { c with images := c.images ++ [k], metadata := c.metadata ++ [(k, m)] }

/-- Append `ch` to `p`'s child list if absent, inserting `p` with
`[ch]` at the end when `p` has no entry yet (dict insertion order). -/
def upsertChild (p ch : String) : List (String × List String) → List (String × List String)
  | [] => [(p, [ch])]
  | (q, cs) :: rest =>
    if q = p then (q, if ch ∈ cs then cs else cs ++ [ch]) :: rest
    else (q, cs) :: upsertChild p ch rest

/-- `ImageCollection.add_containment` (lines 25-35): ensure the parent
entry exists, then append the child and record the bbox only when the
child is not yet listed. -/
def addContainment (c : ImageCollection) (p ch : String) (b : Box) : ImageCollection :=
  if ch ∈ (c.containment.lookup p).getD [] then c
  else { c with containment := upsertChild p ch c.containment,
                boundingBoxes := c.boundingBoxes ++ [((p, ch), b)] }

/-- The fixed 10-color RGBA palette of `assign_colors` (lines 45-56),
stored as `(red, green, blue, alpha)` component tuples. -/
def palette : List Color :=
  [(255, 0, 0, 180), (0, 255, 0, 180), (0, 0, 255, 180), (255, 255, 0, 180),
   (255, 0, 255, 180), (0, 255, 255, 180), (255, 128, 0, 180), (128, 0, 255, 180),
   (0, 128, 0, 180), (128, 128, 255, 180)]

/-- The set `high_mag_images` of `assign_colors` (lines 40-42): the
union of all containment child lists.  One admissible enumeration of
that Python set (membership is all that is determined). -/
def childUnion (c : ImageCollection) : List String :=
  (c.containment.flatMap Prod.snd).dedup

/-- Python dict assignment `self.colors[image] = col`: overwrite in
place if the key exists, else append. -/
def setColor (k : String) (col : Color) : List (String × Color) → List (String × Color)
  | [] => [(k, col)]
  | (q, c0) :: rest =>
    if q = k then (q, col) :: rest else (q, c0) :: setColor k col rest

/-- `ImageCollection.assign_colors` (lines 37-67).  Python iterates the
set `high_mag_images` in an *unspecified* order; the `order` parameter
ranges over admissible enumerations of that set (lists permuting
`childUnion c`).  Each enumerated image receives
`palette[index mod 10]`. -/
def assignColorsWith (order : List String) (c : ImageCollection) : ImageCollection :=
  let step := fun (acc : List (String × Color)) (ic : ℕ × String) =>
    setColor ic.2 (palette.getD (ic.1 % palette.length) (0, 0, 0, 0)) acc
  { c with colors := order.enum.foldl step c.colors }

/-- Clamp to `[0, 1]` (`max(0, min(1, v))`, lines 354-357). -/
def clamp01 (v : ℚ) : ℚ := max 0 (min 1 v)

/-- `CollectionManager._calculate_bounding_box` (lines 315-365).  The
Python body runs under `try/except` and returns `None` on any
exception: a missing field raises `KeyError` at its access and a zero
parent field of view raises `ZeroDivisionError` at the corresponding
division, so all eight geometry fields must be present and both parent
extents nonzero for a box to be produced. -/
def calcBoundingBox (parent child : Meta) : Option Box :=
  match parent.posX, parent.posY, child.posX, child.posY,
        parent.fovW, parent.fovH, child.fovW, child.fovH with
  | some px, some py, some cx, some cy, some pw, some ph, some cw, some ch =>
    if pw = 0 then none
    else if ph = 0 then none
    else
      let relLeft := (cx - cw/2 - px) / pw
      let relRight := (cx + cw/2 - px) / pw
      let relTop := -(cy + ch/2 - py) / ph
      let relBottom := -(cy - ch/2 - py) / ph
      some (clamp01 (1/2 + relLeft), clamp01 (1/2 + relTop),
            clamp01 (1/2 + relRight), clamp01 (1/2 + relBottom))
  | _, _, _, _, _, _, _, _ => none

/-- `image_metadata[img]` on a key known to be present. -/
def mdGet (md : List (String × Meta)) (k : String) : Meta :=
  (md.lookup k).getD ⟨none, none, none, none, none⟩

/-- `os.path.basename`: the part of the path after the last `/`. -/
def basename (s : String) : String :=
  ⟨(s.data.reverse.takeWhile (fun c => c != '/')).reverse⟩

/-- The reverse lookup `containing_images` of `analyze_images`
(lines 181-184): all parents whose child list holds `k`. -/
def containingOf (cmap : List (String × List String)) (k : String) : List String :=
  (cmap.filter (fun pc => k ∈ pc.2)).map Prod.fst

/-- The Python set `all_images` of `analyze_images` (lines 195-200):
the seed, its containing parents, and those parents' children.
Modelled as a deduplicated list (a set determines membership only). -/
def allImagesOf (cmap : List (String × List String)) (k : String) : List String :=
  ([k] ++ containingOf cmap k ++
    (containingOf cmap k).flatMap (fun p => (cmap.lookup p).getD [])).dedup

/-- The collection built for one seed image by `analyze_images`
(lines 186-220): create, add all related images, register the
containment edges whose bounding box computes, then assign colors
(`assign_colors` is run with the `childUnion` enumeration of its set
argument; `n` is `len(collections)`). -/
def buildSeedColl (md : List (String × Meta)) (cmap : List (String × List String))
    (sessionId sampleId : String) (n : ℕ) (k : String) : ImageCollection :=
  let containing := containingOf cmap k
  let allImages := allImagesOf cmap k
  let coll0 := mkCollection ("Collection_" ++ toString (n + 1)) sessionId sampleId
  let coll1 := allImages.foldl (fun c img => addImage c img (mdGet md img)) coll0
  let coll2 := containing.foldl
    (fun c p =>
      if (cmap.lookup p).isSome then
        ((cmap.lookup p).getD []).foldl
          (fun c2 ch =>
            if ch ∈ allImages then
              match calcBoundingBox (mdGet md p) (mdGet md ch) with
              | some b => addContainment c2 p ch b
              | none => c2
            else c2) c
      else c) coll1
  assignColorsWith (childUnion coll2) coll2

/-- One iteration of the seed loop of `analyze_images`
(lines 176-222) over state `(collections, used_images)`. -/
def seedStep (md : List (String × Meta)) (cmap : List (String × List String))
    (sessionId sampleId : String)
    (st : List ImageCollection × List String) (k : String) :
    List ImageCollection × List String :=
  if k ∈ st.2 then st
  else if (containingOf cmap k).isEmpty then st
  else (st.1 ++ [buildSeedColl md cmap sessionId sampleId st.1.length k],
        st.2 ++ allImagesOf cmap k)

/-- One iteration of the singleton loop of `analyze_images`
(lines 225-233): any image not claimed by a seeded collection becomes
its own single-image collection. -/
def singleStep (md : List (String × Meta)) (sessionId sampleId : String)
    (used : List String) (colls : List ImageCollection) (k : String) :
    List ImageCollection :=
  if k ∈ used then colls
  else colls ++ [addImage (mkCollection ("Single_" ++ basename k) sessionId sampleId)
                  k (mdGet md k)]

/-- `CollectionManager.analyze_images` (lines 147-235).  `folderPath`
is accepted and unused, as in the source. -/
def analyzeImages (_folderPath sessionId sampleId : String)
    (md : List (String × Meta)) : List ImageCollection :=
  if md.isEmpty then []
  else
    let sorted := (sortBy (fun p => magKey p.2) md).map Prod.fst
    let cmap := analyzeContainment md
    let st := sorted.reverse.foldl (seedStep md cmap sessionId sampleId) ([], [])
    sorted.foldl (singleStep md sessionId sampleId st.2) st.1

/-- The serialized dictionary shape produced by `to_dict`
(lines 69-81): `bounding_boxes` is re-keyed by the string
`"{parent}|{child}"`. -/
structure CollectionDict where
  name : String
  sessionId : String
  sampleId : String
  images : List String
  metadata : List (String × Meta)
  containment : List (String × List String)
  boundingBoxes : List (String × Box)
  colors : List (String × Color)
deriving DecidableEq, Repr

/-- `ImageCollection.to_dict` (lines 69-81). -/
def toDict (c : ImageCollection) : CollectionDict :=
  ⟨c.name, c.sessionId, c.sampleId, c.images, c.metadata, c.containment,
   c.boundingBoxes.map (fun e => (e.1.1 ++ "|" ++ e.1.2, e.2)), c.colors⟩

/-- Python `str.split("|")` on the character list of a string: splits
at *every* occurrence of `'|'` (`"".split("|") == [""]`). -/
def splitBar : List Char → List (List Char)
  | [] => [[]]
  | ch :: rest =>
    if ch = '|' then [] :: splitBar rest
    else
      match splitBar rest with
      | [] => [[ch]]
      | part :: parts => (ch :: part) :: parts

/-- The unpacking `parent, child = key.split("|")` of `from_dict`
(line 94): succeeds only when the split yields exactly two parts,
otherwise Python raises `ValueError` (modelled as `none`). -/
def decodeKey (s : String) : Option (String × String) :=
  match splitBar s.data with
  | [p, c] => some (⟨p⟩, ⟨c⟩)
  | _ => none

/-- The bounding-box reconstruction loop of `from_dict` (lines 92-95);
the first malformed key aborts the whole deserialization. -/
def decodeBoxes : List (String × Box) → Option (List ((String × String) × Box))
  | [] => some []
  | (s, b) :: rest =>
    match decodeKey s, decodeBoxes rest with
    | some pc, some bbs => some ((pc, b) :: bbs)
    | _, _ => none

/-- `ImageCollection.from_dict` (lines 83-98). -/
def fromDict (d : CollectionDict) : Option ImageCollection :=
  match decodeBoxes d.boundingBoxes with
  | some bbs =>
    some ⟨d.name, d.sessionId, d.sampleId, d.images, d.metadata, d.containment, bbs, d.colors⟩
  | none => none

/-- The directed containment-edge relation of the map returned by
`_analyze_containment`. -/
def cEdge (md : List (String × Meta)) (a b : String) : Prop :=
  ∃ cs, (a, cs) ∈ analyzeContainment md ∧ b ∈ cs

/-- Record with all four geometry fields and a magnification. -/
def mkMeta (w h x y mg : ℚ) : Meta :=
  ⟨some w, some h, some x, some y, some mg⟩

/-- Concrete input for claim C1: `P1` contains `P2` and `I1`; `P2`
contains `I2` (which pokes out of `P1` beyond its 5% margin). -/
def mdC1 : List (String × Meta) :=
  [("P1", mkMeta 1000 1000 0 0 100),
   ("P2", mkMeta 300 300 (-390) 0 500),
   ("I1", mkMeta 100 100 300 0 1000),
   ("I2", mkMeta 10 10 (-545) 0 2000)]

/-- Concrete input for claim C5: `C` has `field_of_view_width = 0` but
all four geometry fields present. -/
def mdC5 : List (String × Meta) :=
  [("P", mkMeta 1000 1000 0 0 100),
   ("C", ⟨some 0, some 100, some 0, some 0, some 1000⟩)]

/-- Concrete input for claim C6: `M` lacks `sample_position_y`. -/
def mdC6 : List (String × Meta) :=
  [("P", mkMeta 1000 1000 0 0 100),
   ("C", mkMeta 100 100 0 0 1000),
   ("M", ⟨some 50, some 50, some 0, none, some 5000⟩)]

/-- Concrete input for claim C10: `K` lacks `"Mag(pol)"`. -/
def mdC10 : List (String × Meta) :=
  [("K", ⟨some 50, some 50, some 3000, some 0, none⟩),
   ("P", mkMeta 1000 1000 0 0 100),
   ("C", mkMeta 100 100 0 0 1000)]

/-- Concrete collection for the claim C7 witness (spec scenario 6). -/
def collC7 : ImageCollection :=
  ⟨"Collection_1", "SEM1-123", "TCL12345", ["A", "B"],
   [("A", mkMeta 1000 1000 0 0 100), ("B", mkMeta 100 100 0 0 1000)],
   [("A", ["B"])], [(("A", "B"), (1/10, 2/10, 3/10, 4/10))],
   [("B", (255, 0, 0, 180))]⟩

/-- Concrete collection for claim C8: a bounding-box pair key whose
parent contains the serialization delimiter. -/
def collC8 : ImageCollection :=
  ⟨"Collection_1", "SEM1-123", "TCL12345", ["a|b", "c"],
   [], [("a|b", ["c"])], [(("a|b", "c"), (0, 0, 1, 1))], []⟩

/-- Concrete collection for claim C9: two contained children. -/
def collC9 : ImageCollection :=
  ⟨"Collection_1", "SEM1-123", "TCL12345", ["p", "a", "b"],
   [], [("p", ["a", "b"])], [], []⟩

theorem insortBy_perm (f : α → ℚ) (x : α) (l : List α) :
    List.Perm (insortBy f x l) (x :: l) := by
  induction l with
  | nil => rfl
  | cons y ys ih =>
    simp only [insortBy]
    split
    · exact List.Perm.refl _
    · exact (ih.cons y).trans (List.Perm.swap x y ys)

theorem sortBy_perm (f : α → ℚ) (l : List α) : List.Perm (sortBy f l) l := by
  induction l with
  | nil => rfl
  | cons x xs ih =>
    have h : sortBy f (x :: xs) = insortBy f x (sortBy f xs) := rfl
    rw [h]
    exact (insortBy_perm f x (sortBy f xs)).trans (ih.cons x)

theorem insortBy_pairwise {f : α → ℚ} {l : List α} (x : α)
    (h : l.Pairwise (fun a b => f a ≤ f b)) :
    (insortBy f x l).Pairwise (fun a b => f a ≤ f b) := by
  induction l with
  | nil => simp [insortBy]
  | cons y ys ih =>
    rw [List.pairwise_cons] at h
    simp only [insortBy]
    split
    next hxy =>
      refine List.pairwise_cons.2 ⟨?_, List.pairwise_cons.2 ⟨h.1, h.2⟩⟩
      intro z hz
      rcases List.mem_cons.1 hz with rfl | hz
      · exact hxy
      · exact le_trans hxy (h.1 z hz)
    next hxy =>
      refine List.pairwise_cons.2 ⟨?_, ih h.2⟩
      intro z hz
      rcases List.mem_cons.1 ((insortBy_perm f x ys).mem_iff.1 hz) with rfl | hz
      · exact le_of_not_le hxy
      · exact h.1 z hz

theorem sortBy_pairwise (f : α → ℚ) (l : List α) :
    (sortBy f l).Pairwise (fun a b => f a ≤ f b) := by
  induction l with
  | nil => exact List.Pairwise.nil
  | cons x xs ih => exact insortBy_pairwise x ih

theorem insortBy_of_forall_le {f : α → ℚ} {x : α} {l : List α}
    (h : ∀ z ∈ l, f x ≤ f z) : insortBy f x l = x :: l := by
  cases l with
  | nil => rfl
  | cons y ys => simp [insortBy, h y (List.mem_cons_self y ys)]

theorem filter_insortBy_pos {f : α → ℚ} {p : α → Bool} {x : α} {l : List α}
    (hs : l.Pairwise (fun a b => f a ≤ f b)) (hx : p x = true) :
    (insortBy f x l).filter p = insortBy f x (l.filter p) := by
  induction l with
  | nil => simp [insortBy, hx]
  | cons y ys ih =>
    rw [List.pairwise_cons] at hs
    simp only [insortBy]
    split
    next hxy =>
      by_cases hy : p y = true
      · simp [List.filter_cons, hx, hy, insortBy, hxy]
      · have hall : ∀ z ∈ ys.filter p, f x ≤ f z := fun z hz =>
          le_trans hxy (hs.1 z (List.mem_of_mem_filter hz))
        simp [List.filter_cons, hx, hy, insortBy_of_forall_le hall]
    next hxy =>
      by_cases hy : p y = true
      · simp [List.filter_cons, hx, hy, insortBy, hxy, ih hs.2]
      · simp [List.filter_cons, hy, ih hs.2]

theorem filter_insortBy_neg {f : α → ℚ} {p : α → Bool} {x : α} {l : List α}
    (hx : p x = false) : (insortBy f x l).filter p = l.filter p := by
  induction l with
  | nil => simp [insortBy, hx]
  | cons y ys ih =>
    simp only [insortBy]
    split
    · simp [List.filter_cons, hx]
    · by_cases hy : p y = true
      · simp [List.filter_cons, hy, ih]
      · simp [List.filter_cons, hy, ih]

theorem filter_sortBy (f : α → ℚ) (p : α → Bool) (l : List α) :
    (sortBy f l).filter p = sortBy f (l.filter p) := by
  induction l with
  | nil => rfl
  | cons x xs ih =>
    have h : sortBy f (x :: xs) = insortBy f x (sortBy f xs) := rfl
    rw [h, List.filter_cons]
    by_cases hx : p x = true
    · rw [filter_insortBy_pos (sortBy_pairwise f xs) hx, ih, hx]
      rfl
    · rw [filter_insortBy_neg (Bool.eq_false_iff.2 hx), ih, Bool.eq_false_iff.2 hx]
      rfl

theorem containLoop_eq_refLoop (l : List (String × Meta)) :
    containLoop l = refLoop (l.filter (fun q => hasGeom q.2)) := by
  induction l with
  | nil => rfl
  | cons km rest ih =>
    obtain ⟨k, m⟩ := km
    by_cases hg : hasGeom m = true
    · have hch : rest.filter (fun q => hasGeom q.2 && containedIn m q.2)
          = (rest.filter (fun q => hasGeom q.2)).filter (fun q => containedIn m q.2) := by
        rw [List.filter_filter]
        exact List.filter_congr (fun a _ => by rw [Bool.and_comm])
      simp only [containLoop, refLoop, List.filter_cons, hg, if_pos, ih, hch]
    · simp only [containLoop, refLoop, List.filter_cons, hg, if_neg, Bool.false_eq_true,
        not_false_iff, ih]

/-- C2: `CollectionManager._analyze_containment` coincides with the
reference definition from the spec: dropping records with missing
geometry before the stable magnification sort, then scanning each pair
(earlier = parent, strictly later = child) with the 5%-margin test on
each axis, and keeping exactly the parents with at least one child,
yields the same containment map. -/
theorem analyzeContainment_eq_spec (md : List (String × Meta)) :
    analyzeContainment md = analyzeContainmentSpec md := by
  unfold analyzeContainment analyzeContainmentSpec
  rw [containLoop_eq_refLoop, filter_sortBy]

theorem containLoop_suffix {l : List (String × Meta)} {a : String} {cs : List String}
    (h : (a, cs) ∈ containLoop l) :
    ∃ m rest, ((a, m) :: rest) <:+ l ∧ hasGeom m = true ∧
      cs = (rest.filter (fun q => hasGeom q.2 && containedIn m q.2)).map Prod.fst ∧
      cs ≠ [] := by
  induction l with
  | nil => cases h
  | cons km tl ih =>
    obtain ⟨k, m0⟩ := km
    by_cases hg : hasGeom m0 = true
    · simp only [containLoop, hg, if_pos] at h
      by_cases he :
          ((tl.filter (fun q => hasGeom q.2 && containedIn m0 q.2)).map Prod.fst).isEmpty = true
      · rw [if_pos he] at h
        obtain ⟨m, rest, hsuf, hgm, hcs, hne⟩ := ih h
        exact ⟨m, rest, hsuf.trans (List.suffix_cons (k, m0) tl), hgm, hcs, hne⟩
      · rw [if_neg he] at h
        rcases List.mem_cons.1 h with heq | htail
        · rw [Prod.mk.injEq] at heq
          obtain ⟨rfl, rfl⟩ := heq
          exact ⟨m0, tl, List.suffix_rfl, hg, rfl, by
            intro hnil
            rw [hnil] at he
            exact he rfl⟩
        · obtain ⟨m, rest, hsuf, hgm, hcs, hne⟩ := ih htail
          exact ⟨m, rest, hsuf.trans (List.suffix_cons (k, m0) tl), hgm, hcs, hne⟩
    · simp only [containLoop, hg] at h
      obtain ⟨m, rest, hsuf, hgm, hcs, hne⟩ := ih h
      exact ⟨m, rest, hsuf.trans (List.suffix_cons (k, m0) tl), hgm, hcs, hne⟩

theorem containLoop_pair_sublist {l : List (String × Meta)} {a b : String} {cs : List String}
    (h : (a, cs) ∈ containLoop l) (hb : b ∈ cs) :
    [a, b].Sublist (l.map Prod.fst) := by
  obtain ⟨m, rest, hsuf, _, hcs, _⟩ := containLoop_suffix h
  subst hcs
  obtain ⟨q, hq, rfl⟩ := List.mem_map.1 hb
  have hqrest : q.1 ∈ rest.map Prod.fst :=
    List.mem_map_of_mem Prod.fst (List.mem_of_mem_filter hq)
  have h1 : [a, q.1].Sublist (((a, m) :: rest).map Prod.fst) := by
    rw [List.map_cons]
    exact (List.singleton_sublist.2 hqrest).cons₂ a
  exact h1.trans (hsuf.map Prod.fst).sublist

theorem assoc_nodup_eq {l : List (α × β)} (hnd : (l.map Prod.fst).Nodup)
    {k : α} {a b : β} (ha : (k, a) ∈ l) (hb : (k, b) ∈ l) : a = b := by
  induction l with
  | nil => cases ha
  | cons x xs ih =>
    rw [List.map_cons, List.nodup_cons] at hnd
    rcases List.mem_cons.1 ha with rfl | ha' <;> rcases List.mem_cons.1 hb with heq | hb'
    · exact (congrArg Prod.snd heq).symm
    · exact absurd (List.mem_map_of_mem Prod.fst hb') hnd.1
    · subst heq
      exact absurd (List.mem_map_of_mem Prod.fst ha') hnd.1
    · exact ih hnd.2 ha' hb'

theorem sublist_pair_idxOf [DecidableEq α] {l : List α} {a b : α}
    (hnd : l.Nodup) (h : [a, b].Sublist l) : l.indexOf a < l.indexOf b := by
  induction l with
  | nil => cases h
  | cons x xs ih =>
    rw [List.nodup_cons] at hnd
    cases h with
    | cons _ h' =>
      have hab : [a, b].Sublist xs := h'
      have ha : a ∈ xs := hab.subset (List.mem_cons_self a [b])
      have hb : b ∈ xs := hab.subset (List.mem_cons_of_mem a (List.mem_cons_self b []))
      have hax : a ≠ x := fun e => hnd.1 (e ▸ ha)
      have hbx : b ≠ x := fun e => hnd.1 (e ▸ hb)
      rw [List.indexOf_cons_ne xs hax.symm, List.indexOf_cons_ne xs hbx.symm]
      exact Nat.succ_lt_succ (ih hnd.2 hab)
    | cons₂ _ h' =>
      have hb : b ∈ xs := List.singleton_sublist.1 h'
      have hba : b ≠ a := fun e => hnd.1 (e ▸ hb)
      rw [List.indexOf_cons_self, List.indexOf_cons_ne xs hba.symm]
      exact Nat.succ_pos _

/-- C4: with distinct image keys, the containment map of
`_analyze_containment`, viewed as a directed graph from parent to
child, is acyclic (its edge relation has an irreflexive transitive
closure); in particular no key appears in its own child list. -/
theorem containment_acyclic (md : List (String × Meta))
    (hnd : (md.map Prod.fst).Nodup) :
    (∀ a cs, (a, cs) ∈ analyzeContainment md → a ∉ cs) ∧
    ∀ a, ¬ Relation.TransGen (cEdge md) a a := by
  have hperm : List.Perm ((sortBy (fun p => magKey p.2) md).map Prod.fst) (md.map Prod.fst) :=
    (sortBy_perm _ md).map Prod.fst
  have hnds : ((sortBy (fun p => magKey p.2) md).map Prod.fst).Nodup :=
    (hperm.nodup_iff).2 hnd
  have hrank : ∀ a b, cEdge md a b →
      ((sortBy (fun p => magKey p.2) md).map Prod.fst).indexOf a <
      ((sortBy (fun p => magKey p.2) md).map Prod.fst).indexOf b := by
    rintro a b ⟨cs, hmem, hb⟩
    exact sublist_pair_idxOf hnds (containLoop_pair_sublist hmem hb)
  constructor
  · intro a cs hmem ha
    exact lt_irrefl _ (hrank a a ⟨cs, hmem, ha⟩)
  · intro a h
    have hmono : ∀ x y, Relation.TransGen (cEdge md) x y →
        ((sortBy (fun p => magKey p.2) md).map Prod.fst).indexOf x <
        ((sortBy (fun p => magKey p.2) md).map Prod.fst).indexOf y := by
      intro x y hxy
      induction hxy with
      | single h1 => exact hrank _ _ h1
      | tail _ h1 ih => exact lt_trans ih (hrank _ _ h1)
    exact lt_irrefl _ (hmono a a h)

theorem containment_acyclic_witness :
    (mdC1.map Prod.fst).Nodup ∧ ¬ Relation.TransGen (cEdge mdC1) "P1" "P1" :=
  ⟨by decide, (containment_acyclic mdC1 (by decide)).2 "P1"⟩

/-- C5 counterexample: in `mdC5` the record of `"C"` carries all four
geometry fields with `field_of_view_width = 0`, yet
`_analyze_containment` does *not* treat it like a record with missing
geometry: it appears as a child of `"P"` in the returned map. -/
theorem zero_fov_child_counterexample :
    (mdGet mdC5 "C").fovW = some 0 ∧ hasGeom (mdGet mdC5 "C") = true ∧
    analyzeContainment mdC5 = [("P", ["C"])] := by
  refine ⟨by simp [mdGet, mdC5, mkMeta, List.lookup], by simp [mdGet, mdC5, mkMeta, List.lookup, hasGeom], ?_⟩
  norm_num [analyzeContainment, sortBy, insortBy, containLoop, magKey, hasGeom,
    containedIn, axisContained, mdC5, mkMeta, List.filter]

/-- C5 (amended): a record with all four geometry fields present but
`field_of_view_width = 0` is not excluded from containment matching —
it can appear as a child — but it never appears as a parent key in the
returned map as long as every record's `field_of_view_width` is
nonnegative, because the strict margin inequalities are unsatisfiable
for a zero-width parent (and `_analyze_containment` performs no
division, so no undefined computation occurs either way). -/
theorem zero_fov_never_parent (md : List (String × Meta))
    (hnd : (md.map Prod.fst).Nodup) {k : String} {m : Meta}
    (hk : (k, m) ∈ md) (hw : m.fovW = some 0)
    (hpos : ∀ q ∈ md, 0 ≤ q.2.fovW.getD 0) :
    ∀ cs, (k, cs) ∈ analyzeContainment md → False := by
  intro cs hmem
  obtain ⟨m', rest, hsuf, _, hcs, hne⟩ := containLoop_suffix hmem
  have hsortmem : (k, m') ∈ sortBy (fun p => magKey p.2) md :=
    hsuf.subset (List.mem_cons_self _ _)
  have hmd' : (k, m') ∈ md := (sortBy_perm _ md).subset hsortmem
  have hmm : m' = m := assoc_nodup_eq hnd hmd' hk
  subst hmm
  obtain ⟨b, hb⟩ := List.exists_mem_of_ne_nil cs hne
  rw [hcs] at hb
  obtain ⟨q, hq, rfl⟩ := List.mem_map.1 hb
  have hqrest : q ∈ rest := List.mem_of_mem_filter hq
  have hqpred := List.of_mem_filter hq
  rw [Bool.and_eq_true] at hqpred
  have hcont := hqpred.2
  have hqmd : q ∈ md := (sortBy_perm _ md).subset
    (hsuf.subset (List.mem_cons_of_mem _ hqrest))
  have hqw : 0 ≤ q.2.fovW.getD 0 := hpos q hqmd
  unfold containedIn at hcont
  rw [Bool.and_eq_true] at hcont
  have hx := hcont.1
  unfold axisContained at hx
  rw [hw] at hx
  rw [Bool.and_eq_true, decide_eq_true_eq, decide_eq_true_eq] at hx
  simp only [Option.getD_some] at hx
  have h1 := hx.1
  have h2 := hx.2
  norm_num at h1 h2
  linarith

theorem zero_fov_never_parent_witness :
    ((mdC5.map Prod.fst).Nodup ∧ ("C", mdGet mdC5 "C") ∈ mdC5 ∧
      (mdGet mdC5 "C").fovW = some 0) ∧
    ¬ ∃ cs, ("C", cs) ∈ analyzeContainment mdC5 := by
  refine ⟨⟨by decide, by simp [mdGet, mdC5, mkMeta, List.lookup], by simp [mdGet, mdC5, mkMeta, List.lookup]⟩, ?_⟩
  rintro ⟨cs, hcs⟩
  exact @zero_fov_never_parent mdC5 (by decide) "C" (mdGet mdC5 "C")
    (by simp [mdGet, mdC5, mkMeta, List.lookup]) (by simp [mdGet, mdC5, mkMeta, List.lookup])
    (by intro q hq; fin_cases hq <;> norm_num [mkMeta]) cs hcs

theorem clamp01_nonneg (v : ℚ) : 0 ≤ clamp01 v := le_max_left 0 _

theorem clamp01_le_one (v : ℚ) : clamp01 v ≤ 1 :=
  max_le (by norm_num) (min_le_left 1 v)

theorem clamp01_mono {a b : ℚ} (h : a ≤ b) : clamp01 a ≤ clamp01 b :=
  max_le_max (le_refl 0) (min_le_min (le_refl 1) h)

/-- C3: when parent and child both carry the four geometry fields and
both have positive field-of-view width and height,
`_calculate_bounding_box` returns a box `(x1, y1, x2, y2)` with
`0 ≤ x1 ≤ x2 ≤ 1` and `0 ≤ y1 ≤ y2 ≤ 1` (degenerate boxes allowed). -/
theorem bounding_box_clamped (parent child : Meta) (pw ph cw ch : ℚ)
    (hpw : parent.fovW = some pw) (hph : parent.fovH = some ph)
    (hcw : child.fovW = some cw) (hch : child.fovH = some ch)
    (hpx : parent.posX.isSome = true) (hpy : parent.posY.isSome = true)
    (hcx : child.posX.isSome = true) (hcy : child.posY.isSome = true)
    (hpw0 : 0 < pw) (hph0 : 0 < ph) (hcw0 : 0 < cw) (hch0 : 0 < ch) :
    ∃ x1 y1 x2 y2, calcBoundingBox parent child = some (x1, y1, x2, y2) ∧
      0 ≤ x1 ∧ x1 ≤ x2 ∧ x2 ≤ 1 ∧ 0 ≤ y1 ∧ y1 ≤ y2 ∧ y2 ≤ 1 := by
  obtain ⟨pfw, pfh, ppx, ppy, pmg⟩ := parent
  obtain ⟨cfw, cfh, cpx, cpy, cmg⟩ := child
  obtain ⟨px, hpx'⟩ := Option.isSome_iff_exists.1 hpx
  obtain ⟨py, hpy'⟩ := Option.isSome_iff_exists.1 hpy
  obtain ⟨cx, hcx'⟩ := Option.isSome_iff_exists.1 hcx
  obtain ⟨cy, hcy'⟩ := Option.isSome_iff_exists.1 hcy
  simp only at hpw hph hcw hch hpx' hpy' hcx' hcy'
  subst hpw hph hcw hch hpx' hpy' hcx' hcy'
  have hbox : calcBoundingBox ⟨some pw, some ph, some px, some py, pmg⟩
      ⟨some cw, some ch, some cx, some cy, cmg⟩ =
      some (clamp01 (1/2 + (cx - cw/2 - px) / pw),
            clamp01 (1/2 + -(cy + ch/2 - py) / ph),
            clamp01 (1/2 + (cx + cw/2 - px) / pw),
            clamp01 (1/2 + -(cy - ch/2 - py) / ph)) := by
    simp only [calcBoundingBox]
    rw [if_neg hpw0.ne', if_neg hph0.ne']
  refine ⟨_, _, _, _, hbox, clamp01_nonneg _, clamp01_mono ?_, clamp01_le_one _,
    clamp01_nonneg _, clamp01_mono ?_, clamp01_le_one _⟩
  · have h1 : (cx - cw/2 - px) / pw ≤ (cx + cw/2 - px) / pw :=
      (div_le_div_iff_of_pos_right hpw0).2 (by linarith)
    linarith
  · have h1 : -(cy + ch/2 - py) / ph ≤ -(cy - ch/2 - py) / ph :=
      (div_le_div_iff_of_pos_right hph0).2 (by linarith)
    linarith

theorem lookup_mem {l : List (String × α)} {k : String} {v : α}
    (h : l.lookup k = some v) : (k, v) ∈ l := by
  induction l with
  | nil => cases h
  | cons e rest ih =>
    obtain ⟨a, b⟩ := e
    simp only [List.lookup] at h
    split at h
    next heq =>
      obtain rfl : k = a := eq_of_beq heq
      injection h with h
      subst h
      exact List.mem_cons_self _ _
    next => exact List.mem_cons_of_mem _ (ih h)

theorem addImage_mem_self (c : ImageCollection) (k : String) (m : Meta) :
    k ∈ (addImage c k m).images := by
  unfold addImage
  split
  next h => exact h
  next h => simp

theorem addImage_mem_mono {c : ImageCollection} {x : String} (k : String) (m : Meta)
    (h : x ∈ c.images) : x ∈ (addImage c k m).images := by
  unfold addImage
  split
  · exact h
  · simp [h]

theorem foldl_addImage_mem (g : String → Meta) (ks : List String) :
    ∀ c0 : ImageCollection, ∀ x, (x ∈ c0.images ∨ x ∈ ks) →
      x ∈ (ks.foldl (fun c i => addImage c i (g i)) c0).images := by
  induction ks with
  | nil =>
    intro c0 x h
    simpa using h
  | cons y ys ih =>
    intro c0 x h
    rw [List.foldl_cons]
    rcases h with h | h
    · exact ih _ x (Or.inl (addImage_mem_mono y (g y) h))
    · rcases List.mem_cons.1 h with rfl | h
      · exact ih _ x (Or.inl (addImage_mem_self c0 x (g x)))
      · exact ih _ x (Or.inr h)

theorem addContainment_images (c : ImageCollection) (p ch : String) (b : Box) :
    (addContainment c p ch b).images = c.images := by
  unfold addContainment
  split <;> rfl

theorem assignColorsWith_images (ord : List String) (c : ImageCollection) :
    (assignColorsWith ord c).images = c.images := rfl

theorem foldl_images_eq (f : ImageCollection → β → ImageCollection)
    (hf : ∀ c b, (f c b).images = c.images) (l : List β) :
    ∀ c : ImageCollection, (l.foldl f c).images = c.images := by
  induction l with
  | nil => intro c; rfl
  | cons y ys ih => intro c; rw [List.foldl_cons, ih, hf]

theorem buildSeedColl_mem_images (md : List (String × Meta))
    (cmap : List (String × List String)) (sid sam : String) (n : ℕ) (k : String)
    {x : String} (hx : x ∈ allImagesOf cmap k) :
    x ∈ (buildSeedColl md cmap sid sam n k).images := by
  simp only [buildSeedColl]
  rw [assignColorsWith_images]
  rw [foldl_images_eq _ ?hout]
  case hout =>
    intro c p
    split
    · exact foldl_images_eq _ (by
        intro c2 ch
        split
        · cases calcBoundingBox (mdGet md p) (mdGet md ch) with
          | some b => exact addContainment_images c2 p ch b
          | none => rfl
        · rfl) _ c
    · rfl
  exact foldl_addImage_mem _ _ _ x (Or.inr hx)

theorem seedStep_colls_mono (md : List (String × Meta))
    (cmap : List (String × List String)) (sid sam : String)
    (st : List ImageCollection × List String) (k : String) {c : ImageCollection}
    (hc : c ∈ st.1) : c ∈ (seedStep md cmap sid sam st k).1 := by
  unfold seedStep
  split
  · exact hc
  split
  · exact hc
  · exact List.mem_append_left _ hc

theorem seedStep_inv (md : List (String × Meta))
    (cmap : List (String × List String)) (sid sam : String)
    (st : List ImageCollection × List String) (k : String)
    (h : ∀ x ∈ st.2, ∃ c ∈ st.1, x ∈ c.images) :
    ∀ x ∈ (seedStep md cmap sid sam st k).2,
      ∃ c ∈ (seedStep md cmap sid sam st k).1, x ∈ c.images := by
  unfold seedStep
  split
  · exact h
  split
  · exact h
  intro x hx
  rcases List.mem_append.1 hx with hx | hx
  · obtain ⟨c, hc, hcx⟩ := h x hx
    exact ⟨c, List.mem_append_left _ hc, hcx⟩
  · exact ⟨buildSeedColl md cmap sid sam st.1.length k,
      List.mem_append_right _ (List.mem_singleton_self _),
      buildSeedColl_mem_images md cmap sid sam st.1.length k hx⟩

theorem foldl_seedStep_inv (md : List (String × Meta))
    (cmap : List (String × List String)) (sid sam : String) (ks : List String) :
    ∀ st, (∀ x ∈ st.2, ∃ c ∈ st.1, x ∈ c.images) →
      ∀ x ∈ (ks.foldl (seedStep md cmap sid sam) st).2,
        ∃ c ∈ (ks.foldl (seedStep md cmap sid sam) st).1, x ∈ c.images := by
  induction ks with
  | nil => intro st h; exact h
  | cons y ys ih =>
    intro st h
    rw [List.foldl_cons]
    exact ih _ (seedStep_inv md cmap sid sam st y h)

theorem singles_mono (md : List (String × Meta)) (sid sam : String)
    (used : List String) (ks : List String) :
    ∀ colls, ∀ {c : ImageCollection}, c ∈ colls →
      c ∈ ks.foldl (singleStep md sid sam used) colls := by
  induction ks with
  | nil => intro colls c hc; exact hc
  | cons y ys ih =>
    intro colls c hc
    rw [List.foldl_cons]
    apply ih
    unfold singleStep
    split
    · exact hc
    · exact List.mem_append_left _ hc

theorem singles_singleton (md : List (String × Meta)) (sid sam : String)
    (used : List String) (ks : List String) {x : String}
    (hnx : x ∉ used) :
    ∀ colls, x ∈ ks →
      ∃ c ∈ ks.foldl (singleStep md sid sam used) colls,
        c.images = [x] ∧ c.containment = [] := by
  induction ks with
  | nil => intro colls hx; cases hx
  | cons y ys ih =>
    intro colls hx
    rw [List.foldl_cons]
    rcases List.mem_cons.1 hx with rfl | hx'
    · refine ⟨addImage (mkCollection ("Single_" ++ basename x) sid sam) x (mdGet md x),
        ?_, by simp [addImage, mkCollection], by simp [addImage, mkCollection]⟩
      apply singles_mono
      unfold singleStep
      rw [if_neg hnx]
      exact List.mem_append_right _ (List.mem_singleton_self _)
    · exact ih _ hx'

/-- C1 (amended): every image key of the input metadata map appears in
the `images` list of at least one collection returned by
`analyze_images` (no image is dropped).  The stronger "exactly one"
uniqueness fails: see the counterexample, where an image is pulled into
two different multi-image collections. -/
theorem analyze_images_coverage (fp sid sam : String) (md : List (String × Meta))
    {k : String} (hk : k ∈ md.map Prod.fst) :
    ∃ c ∈ analyzeImages fp sid sam md, k ∈ c.images := by
  have hne : md.isEmpty = false := by
    cases md
    · cases hk
    · rfl
  unfold analyzeImages
  simp only [hne, Bool.false_eq_true, if_false]
  have hksorted : k ∈ (sortBy (fun p => magKey p.2) md).map Prod.fst :=
    (((sortBy_perm (fun p => magKey p.2) md).map Prod.fst).mem_iff).2 hk
  by_cases hku : k ∈ (((sortBy (fun p => magKey p.2) md).map Prod.fst).reverse.foldl
      (seedStep md (analyzeContainment md) sid sam) ([], [])).2
  · obtain ⟨c, hc, hcx⟩ := foldl_seedStep_inv md (analyzeContainment md) sid sam
      (((sortBy (fun p => magKey p.2) md).map Prod.fst).reverse) ([], [])
      (fun x hx => absurd hx (List.not_mem_nil x)) k hku
    exact ⟨c, singles_mono md sid sam _ _ _ hc, hcx⟩
  · obtain ⟨c, hc, hcim, _⟩ := singles_singleton md sid sam _ _ hku _ hksorted
    exact ⟨c, hc, by rw [hcim]; exact List.mem_singleton_self k⟩

theorem analyze_images_coverage_witness :
    ("P1" ∈ mdC1.map Prod.fst) ∧
    ∃ c ∈ analyzeImages "" "s" "x" mdC1, "P1" ∈ c.images :=
  ⟨by decide, analyze_images_coverage "" "s" "x" mdC1 (by decide)⟩

unseal Rat.add Rat.mul Rat.inv Rat.sub in
/-- C1 counterexample: on `mdC1`, `analyze_images` returns two
collections and the image `"P2"` appears in the `images` list of both
(the second seed pulls in `P1` and all of `P1`'s children, including
the already-used `P2`), so coverage is not "exactly one". -/
theorem image_in_two_collections_counterexample :
    (analyzeImages "" "s" "x" mdC1).length = 2 ∧
    (analyzeImages "" "s" "x" mdC1).countP (fun c => decide ("P2" ∈ c.images)) = 2 := by
  decide

theorem allImagesOf_sub (cmap : List (String × List String)) (k : String)
    (hne : ¬((containingOf cmap k).isEmpty = true)) :
    ∀ x ∈ allImagesOf cmap k, ∃ e ∈ cmap, x = e.1 ∨ x ∈ e.2 := by
  intro x hx
  rw [allImagesOf, List.mem_dedup] at hx
  rcases List.mem_append.1 hx with hx | hx
  · rcases List.mem_append.1 hx with hx | hx
    · rw [List.mem_singleton] at hx
      subst hx
      have hfil : cmap.filter (fun pc => x ∈ pc.2) ≠ [] := by
        intro hemp
        rw [containingOf, hemp] at hne
        exact hne rfl
      obtain ⟨e, he⟩ := List.exists_mem_of_ne_nil _ hfil
      have hpe := List.of_mem_filter he
      simp only [decide_eq_true_eq] at hpe
      exact ⟨e, List.mem_of_mem_filter he, Or.inr hpe⟩
    · rw [containingOf] at hx
      obtain ⟨e, he, rfl⟩ := List.mem_map.1 hx
      exact ⟨e, List.mem_of_mem_filter he, Or.inl rfl⟩
  · obtain ⟨p, hp, hx2⟩ := List.mem_flatMap.1 hx
    cases hcl : cmap.lookup p with
    | none =>
      rw [hcl] at hx2
      cases hx2
    | some cs =>
      rw [hcl] at hx2
      exact ⟨(p, cs), lookup_mem hcl, Or.inr hx2⟩

theorem seeds_used_sub (md : List (String × Meta))
    (cmap : List (String × List String)) (sid sam : String) (ks : List String) :
    ∀ st, (∀ x ∈ st.2, ∃ e ∈ cmap, x = e.1 ∨ x ∈ e.2) →
      ∀ x ∈ (ks.foldl (seedStep md cmap sid sam) st).2,
        ∃ e ∈ cmap, x = e.1 ∨ x ∈ e.2 := by
  induction ks with
  | nil => intro st h; exact h
  | cons y ys ih =>
    intro st h
    rw [List.foldl_cons]
    apply ih
    unfold seedStep
    split
    · exact h
    split
    next hemp => exact h
    next hemp =>
      intro x hx
      rcases List.mem_append.1 hx with hx | hx
      · exact h x hx
      · exact allImagesOf_sub cmap y hemp x hx

/-- C6: an image whose record lacks one of the four geometry fields is
never a parent key and never a child in the containment map of
`_analyze_containment`, yet `analyze_images` still returns it inside
its own singleton collection (images `[k]`, empty containment); no
error is reported (the function simply returns the collection list). -/
theorem missing_geom_behavior (fp sid sam : String) (md : List (String × Meta))
    (hnd : (md.map Prod.fst).Nodup) {k : String} {m : Meta}
    (hk : (k, m) ∈ md) (hg : hasGeom m = false) :
    (∀ cs, (k, cs) ∈ analyzeContainment md → False) ∧
    (∀ p cs, (p, cs) ∈ analyzeContainment md → k ∉ cs) ∧
    ∃ c ∈ analyzeImages fp sid sam md, c.images = [k] ∧ c.containment = [] := by
  have hpar : ∀ cs, (k, cs) ∈ analyzeContainment md → False := by
    intro cs hmem
    obtain ⟨m', rest, hsuf, hgm, _, _⟩ := containLoop_suffix hmem
    have hmd' : (k, m') ∈ md :=
      (sortBy_perm _ md).subset (hsuf.subset (List.mem_cons_self _ _))
    rw [assoc_nodup_eq hnd hmd' hk, hg] at hgm
    cases hgm
  have hchild : ∀ p cs, (p, cs) ∈ analyzeContainment md → k ∉ cs := by
    intro p cs hmem hkin
    obtain ⟨m', rest, hsuf, _, hcs, _⟩ := containLoop_suffix hmem
    rw [hcs] at hkin
    obtain ⟨q, hq, hq1⟩ := List.mem_map.1 hkin
    have hqpred := List.of_mem_filter hq
    rw [Bool.and_eq_true] at hqpred
    have hqmd : q ∈ md := (sortBy_perm _ md).subset
      (hsuf.subset (List.mem_cons_of_mem _ (List.mem_of_mem_filter hq)))
    have hqk : (k, q.2) ∈ md := by
      rw [← hq1, Prod.mk.eta]
      exact hqmd
    have := hqpred.1
    rw [assoc_nodup_eq hnd hqk hk, hg] at this
    cases this
  refine ⟨hpar, hchild, ?_⟩
  have hne : md.isEmpty = false := by
    cases md
    · cases hk
    · rfl
  unfold analyzeImages
  simp only [hne, Bool.false_eq_true, if_false]
  have hkmem : k ∈ (sortBy (fun p => magKey p.2) md).map Prod.fst :=
    (((sortBy_perm (fun p => magKey p.2) md).map Prod.fst).mem_iff).2
      (List.mem_map_of_mem Prod.fst hk)
  have hku : k ∉ (((sortBy (fun p => magKey p.2) md).map Prod.fst).reverse.foldl
      (seedStep md (analyzeContainment md) sid sam) ([], [])).2 := by
    intro hin
    obtain ⟨e, he, hor⟩ := seeds_used_sub md (analyzeContainment md) sid sam
      (((sortBy (fun p => magKey p.2) md).map Prod.fst).reverse) ([], [])
      (fun x hx => absurd hx (List.not_mem_nil x)) k hin
    rcases hor with heq | hin2
    · subst heq
      exact hpar e.2 (by rw [Prod.mk.eta]; exact he)
    · exact hchild e.1 e.2 (by rw [Prod.mk.eta]; exact he) hin2
  obtain ⟨c, hc, h1, h2⟩ := singles_singleton md sid sam _ _ hku _ hkmem
  exact ⟨c, hc, h1, h2⟩

theorem missing_geom_behavior_witness :
    ((mdC6.map Prod.fst).Nodup ∧ ("M", mdGet mdC6 "M") ∈ mdC6 ∧
      hasGeom (mdGet mdC6 "M") = false) ∧
    ∃ c ∈ analyzeImages "" "s" "x" mdC6, c.images = ["M"] ∧ c.containment = [] := by
  refine ⟨⟨by decide, by simp [mdGet, mdC6, mkMeta, List.lookup],
    by simp [mdGet, mdC6, mkMeta, List.lookup, hasGeom]⟩, ?_⟩
  exact (@missing_geom_behavior "" "s" "x" mdC6 (by decide) "M" (mdGet mdC6 "M")
    (by simp [mdGet, mdC6, mkMeta, List.lookup])
    (by simp [mdGet, mdC6, mkMeta, List.lookup, hasGeom])).2.2

/-- C10: an image whose record lacks the `"Mag(pol)"` key receives
sort key 0 (the shared sort key of `analyze_images` and
`_analyze_containment`), so with distinct keys it can only be tested as
a potential parent of positive-magnification images: it never appears
in the child list of any parent whose magnification is positive. -/
theorem missing_mag_sorts_first (md : List (String × Meta))
    (hnd : (md.map Prod.fst).Nodup) {k : String} {m : Meta}
    (hk : (k, m) ∈ md) (hmag : m.mag = none)
    {p : String} {mp : Meta} (hp : (p, mp) ∈ md) {v : ℚ}
    (hpv : mp.mag = some v) (hv : 0 < v) :
    magKey m = 0 ∧ ∀ cs, (p, cs) ∈ analyzeContainment md → k ∉ cs := by
  constructor
  · simp [magKey, hmag]
  · intro cs hmem hkcs
    obtain ⟨m', rest, hsuf, _, hcs, _⟩ := containLoop_suffix hmem
    have hpmem : (p, m') ∈ md :=
      (sortBy_perm _ md).subset (hsuf.subset (List.mem_cons_self _ _))
    have hm' : m' = mp := assoc_nodup_eq hnd hpmem hp
    subst hm'
    rw [hcs] at hkcs
    obtain ⟨q, hq, hq1⟩ := List.mem_map.1 hkcs
    have hqrest : q ∈ rest := List.mem_of_mem_filter hq
    have hqmd : q ∈ md :=
      (sortBy_perm _ md).subset (hsuf.subset (List.mem_cons_of_mem _ hqrest))
    have hqk : (k, q.2) ∈ md := by
      rw [← hq1, Prod.mk.eta]
      exact hqmd
    have hqm : q.2 = m := assoc_nodup_eq hnd hqk hk
    have hpw : (sortBy (fun x => magKey x.2) md).Pairwise
        (fun a b => magKey a.2 ≤ magKey b.2) := sortBy_pairwise _ md
    have hsubpw := List.Pairwise.sublist hsuf.sublist hpw
    rw [List.pairwise_cons] at hsubpw
    have hle := hsubpw.1 q hqrest
    rw [hqm] at hle
    rw [magKey, magKey, hpv, hmag] at hle
    simp only [Option.getD_some, Option.getD_none] at hle
    linarith

theorem missing_mag_sorts_first_witness :
    ((mdC10.map Prod.fst).Nodup ∧ (mdGet mdC10 "K").mag = none ∧
      (mdGet mdC10 "P").mag = some 100 ∧ (0:ℚ) < 100) ∧
    magKey (mdGet mdC10 "K") = 0 ∧ "K" ∉ ["C"] := by
  have h := @missing_mag_sorts_first mdC10 (by decide) "K" (mdGet mdC10 "K")
    (by simp [mdGet, mdC10, List.lookup]) (by simp [mdGet, mdC10, mkMeta, List.lookup])
    "P" (mdGet mdC10 "P") (by simp [mdGet, mdC10, mkMeta, List.lookup]) 100
    (by simp [mdGet, mdC10, mkMeta, List.lookup]) (by norm_num)
  refine ⟨⟨by decide, by simp [mdGet, mdC10, mkMeta, List.lookup],
    by simp [mdGet, mdC10, mkMeta, List.lookup], by norm_num⟩, h.1, h.2 ["C"] ?_⟩
  have heval : analyzeContainment mdC10 = [("P", ["C"])] := by
    norm_num [analyzeContainment, sortBy, insortBy, containLoop, magKey, hasGeom,
      containedIn, axisContained, mdC10, mkMeta, List.filter]
  rw [heval]
  exact List.mem_singleton.2 rfl

theorem bounding_box_clamped_witness :
    (0:ℚ) < 1000 ∧ (0:ℚ) < 100 ∧
    ∃ x1 y1 x2 y2,
      calcBoundingBox (mkMeta 1000 1000 0 0 100) (mkMeta 100 100 0 0 1000) =
        some (x1, y1, x2, y2) ∧
      0 ≤ x1 ∧ x1 ≤ x2 ∧ x2 ≤ 1 ∧ 0 ≤ y1 ∧ y1 ≤ y2 ∧ y2 ≤ 1 :=
  ⟨by norm_num, by norm_num,
    bounding_box_clamped (mkMeta 1000 1000 0 0 100) (mkMeta 100 100 0 0 1000)
      1000 1000 100 100 rfl rfl rfl rfl rfl rfl rfl rfl
      (by norm_num) (by norm_num) (by norm_num) (by norm_num)⟩

theorem splitBar_no_bar {l : List Char} (h : '|' ∉ l) : splitBar l = [l] := by
  induction l with
  | nil => rfl
  | cons c cs ih =>
    have hc : ¬(c = '|') := fun e => h (e ▸ List.mem_cons_self c cs)
    have ht : '|' ∉ cs := fun e => h (List.mem_cons_of_mem c e)
    simp only [splitBar, if_neg hc, ih ht]

theorem splitBar_append {xs ys : List Char} (h : '|' ∉ xs) :
    splitBar (xs ++ '|' :: ys) = xs :: splitBar ys := by
  induction xs with
  | nil => simp [splitBar]
  | cons c cs ih =>
    have hc : ¬(c = '|') := fun e => h (e ▸ List.mem_cons_self c cs)
    have ht : '|' ∉ cs := fun e => h (List.mem_cons_of_mem c e)
    rw [List.cons_append]
    simp only [splitBar, if_neg hc, ih ht]

theorem splitBar_length (l : List Char) : (splitBar l).length = l.count '|' + 1 := by
  induction l with
  | nil => rfl
  | cons c cs ih =>
    by_cases hc : c = '|'
    · subst hc
      simp [splitBar, List.count_cons, ih]
    · simp only [splitBar, if_neg hc]
      cases hsp : splitBar cs with
      | nil =>
        rw [hsp] at ih
        simp at ih
      | cons p ps =>
        rw [hsp] at ih
        simpa [List.count_cons, hc] using ih

theorem decodeKey_encode {p c : String} (hp : '|' ∉ p.data) (hc : '|' ∉ c.data) :
    decodeKey (p ++ "|" ++ c) = some (p, c) := by
  unfold decodeKey
  have hdata : (p ++ "|" ++ c).data = p.data ++ '|' :: c.data := by
    simp [String.data_append]
  rw [hdata, splitBar_append hp, splitBar_no_bar hc]

theorem decodeBoxes_encode (l : List ((String × String) × Box))
    (h : ∀ e ∈ l, '|' ∉ e.1.1.data ∧ '|' ∉ e.1.2.data) :
    decodeBoxes (l.map (fun e => (e.1.1 ++ "|" ++ e.1.2, e.2))) = some l := by
  induction l with
  | nil => rfl
  | cons e es ih =>
    rw [List.map_cons]
    simp only [decodeBoxes]
    rw [decodeKey_encode (h e (List.mem_cons_self e es)).1 (h e (List.mem_cons_self e es)).2,
      ih (fun x hx => h x (List.mem_cons_of_mem e hx))]

/-- C7: for a collection satisfying the documented invariant (every
bounding-box pair key names images of the collection) and whose image
keys contain no `"|"`, `from_dict (to_dict c)` reproduces the
collection exactly: same name, session and sample ids, images,
metadata, containment, bounding boxes and colors. -/
theorem from_to_dict_roundtrip (c : ImageCollection)
    (hinv : ∀ e ∈ c.boundingBoxes, e.1.1 ∈ c.images ∧ e.1.2 ∈ c.images)
    (himg : ∀ k ∈ c.images, '|' ∉ k.data) :
    fromDict (toDict c) = some c := by
  unfold fromDict toDict
  rw [decodeBoxes_encode c.boundingBoxes
    (fun e he => ⟨himg _ (hinv e he).1, himg _ (hinv e he).2⟩)]

theorem from_to_dict_roundtrip_witness :
    ((∀ e ∈ collC7.boundingBoxes, e.1.1 ∈ collC7.images ∧ e.1.2 ∈ collC7.images) ∧
      ∀ k ∈ collC7.images, '|' ∉ k.data) ∧
    fromDict (toDict collC7) = some collC7 :=
  ⟨⟨by decide, by decide⟩,
    from_to_dict_roundtrip collC7 (by decide) (by decide)⟩

/-- C8 counterexample: `to_dict` performs no validation or escaping
for a pair key containing the delimiter — on `collC8` it silently
produces the ambiguous serialized key `"a|b|c"` — and `from_dict`
splits on *every* `"|"` occurrence, so the unpacking fails
(`ValueError`, modelled as `none`) instead of splitting on the first
occurrence. -/
theorem separator_not_validated_counterexample :
    (toDict collC8).boundingBoxes = [("a|b|c", ((0:ℚ), (0:ℚ), (1:ℚ), (1:ℚ)))] ∧
    fromDict (toDict collC8) = none := by
  refine ⟨by decide, by decide⟩

theorem decodeKey_eq_none {s : String} (h : (splitBar s.data).length ≠ 2) :
    decodeKey s = none := by
  unfold decodeKey
  cases hsp : splitBar s.data with
  | nil => rfl
  | cons a rest =>
    cases rest with
    | nil => rfl
    | cons b rest2 =>
      cases rest2 with
      | nil =>
        exfalso
        apply h
        rw [hsp]
        rfl
      | cons d rest3 => rfl

theorem decodeBoxes_none {l : List (String × Box)} {e : String × Box} (he : e ∈ l)
    (hk : decodeKey e.1 = none) : decodeBoxes l = none := by
  induction l with
  | nil => cases he
  | cons x xs ih =>
    obtain ⟨s, b⟩ := x
    simp only [decodeBoxes]
    rcases List.mem_cons.1 he with rfl | he'
    · rw [hk]
    · rw [ih he']
      cases decodeKey s <;> rfl

/-- C8 (amended): `to_dict` does not reject or escape a pair key whose
parent or child contains `"|"` — it serializes the ambiguous
concatenation `"{parent}|{child}"` unchanged — and `from_dict` splits
such a key on all of its `"|"` occurrences, getting more than two
parts, so the unpacking raises (modelled as `none`): such a collection
fails to deserialize instead of round-tripping. -/
theorem separator_collision (c : ImageCollection) {p ch : String} {b : Box}
    (hmem : ((p, ch), b) ∈ c.boundingBoxes)
    (hbar : '|' ∈ p.data ∨ '|' ∈ ch.data) :
    (p ++ "|" ++ ch, b) ∈ (toDict c).boundingBoxes ∧
    fromDict (toDict c) = none := by
  constructor
  · exact List.mem_map.2 ⟨((p, ch), b), hmem, rfl⟩
  · unfold fromDict
    have henc : ((p ++ "|" ++ ch, b) : String × Box) ∈ (toDict c).boundingBoxes :=
      List.mem_map.2 ⟨((p, ch), b), hmem, rfl⟩
    have hkey : decodeKey (p ++ "|" ++ ch) = none := by
      apply decodeKey_eq_none
      have hdata : (p ++ "|" ++ ch).data = p.data ++ '|' :: ch.data := by
        simp [String.data_append]
      rw [hdata, splitBar_length, List.count_append, List.count_cons]
      have hcnt : 0 < p.data.count '|' + ch.data.count '|' := by
        rcases hbar with hbar | hbar
        · have := List.count_pos_iff.2 hbar
          omega
        · have := List.count_pos_iff.2 hbar
          omega
      simp only [beq_self_eq_true, if_true]
      omega
    rw [decodeBoxes_none henc hkey]

theorem separator_collision_witness :
    ((("a|b", "c"), ((0:ℚ), (0:ℚ), (1:ℚ), (1:ℚ))) ∈ collC8.boundingBoxes ∧
      ('|' ∈ ("a|b" : String).data ∨ '|' ∈ ("c" : String).data)) ∧
    (("a|b" ++ "|" ++ "c" : String), ((0:ℚ), (0:ℚ), (1:ℚ), (1:ℚ))) ∈
      (toDict collC8).boundingBoxes ∧
    fromDict (toDict collC8) = none :=
  ⟨⟨by decide, Or.inl (by decide)⟩,
    separator_collision collC8 (by decide) (Or.inl (by decide))⟩

/-- C9 counterexample: `assign_colors` iterates the Python *set* of
contained children, whose order is unspecified: both `["a", "b"]` and
`["b", "a"]` enumerate the child set of `collC9`, and the two
enumerations yield different `colors` mappings, so the function is not
deterministic in the claimed sense (and does not sort by key). -/
theorem assign_colors_order_dependent_counterexample :
    List.Perm ["a", "b"] (childUnion collC9) ∧
    List.Perm ["b", "a"] (childUnion collC9) ∧
    (assignColorsWith ["a", "b"] collC9).colors ≠
      (assignColorsWith ["b", "a"] collC9).colors := by
  refine ⟨by decide, by decide, by decide⟩

theorem setColor_not_mem {l : List (String × Color)} {k : String} (col : Color)
    (h : k ∉ l.map Prod.fst) : setColor k col l = l ++ [(k, col)] := by
  induction l with
  | nil => rfl
  | cons e es ih =>
    obtain ⟨q, c0⟩ := e
    rw [List.map_cons] at h
    have hq : ¬(q = k) := fun e => h (e ▸ List.mem_cons_self q _)
    have ht : k ∉ es.map Prod.fst := fun hm => h (List.mem_cons_of_mem _ hm)
    simp only [setColor, if_neg hq, ih ht, List.cons_append]

theorem foldl_setColor_fresh (pairs : List (ℕ × String)) :
    ∀ acc : List (String × Color),
      (∀ ic ∈ pairs, ic.2 ∉ acc.map Prod.fst) → (pairs.map Prod.snd).Nodup →
      pairs.foldl
        (fun a ic => setColor ic.2 (palette.getD (ic.1 % palette.length) (0, 0, 0, 0)) a) acc
      = acc ++ pairs.map
          (fun ic => (ic.2, palette.getD (ic.1 % palette.length) (0, 0, 0, 0))) := by
  induction pairs with
  | nil =>
    intro acc _ _
    simp
  | cons e es ih =>
    intro acc hfresh hnd
    rw [List.map_cons, List.nodup_cons] at hnd
    rw [List.foldl_cons, setColor_not_mem _ (hfresh e (List.mem_cons_self e es)),
      ih _ ?_ hnd.2, List.map_cons]
    · simp
    · intro ic hic
      rw [List.map_append]
      intro hm
      rcases List.mem_append.1 hm with hm | hm
      · exact hfresh ic (List.mem_cons_of_mem e hic) hm
      · rw [List.map_cons] at hm
        rcases List.mem_singleton.1 (by simpa using hm) with heq
        exact hnd.1 (heq ▸ List.mem_map_of_mem Prod.snd hic)

theorem assignColorsWith_colors (ord : List String) (c : ImageCollection)
    (hfresh : c.colors = []) (hnd : ord.Nodup) :
    (assignColorsWith ord c).colors = ord.enum.map
      (fun ic => (ic.2, palette.getD (ic.1 % palette.length) (0, 0, 0, 0))) := by
  simp only [assignColorsWith, hfresh]
  rw [foldl_setColor_fresh ord.enum [] (by simp) (by rw [List.enum_map_snd]; exact hnd)]
  simp

theorem palette_alpha : ∀ col ∈ palette, col.2.2.2 = 180 := by decide

/-- C9 (amended): `assign_colors` enumerates the set of contained
children in an unspecified (Python set) order; along whatever
enumeration it uses it assigns `palette[index mod 10]` from the fixed
10-color RGBA palette with alpha 180, and when the collection has at
most 10 children the assigned colors are pairwise distinct.  Equality
of containment maps alone does not determine the `colors` mapping (see
the counterexample); it is determined only together with the
enumeration order. -/
theorem assign_colors_palette (c : ImageCollection) (ord : List String)
    (hperm : List.Perm ord (childUnion c)) (hfresh : c.colors = []) :
    (assignColorsWith ord c).colors.map Prod.fst = ord ∧
    (∀ e ∈ (assignColorsWith ord c).colors, e.2 ∈ palette ∧ e.2.2.2.2 = 180) ∧
    (ord.length ≤ 10 →
      (assignColorsWith ord c).colors.Pairwise (fun a b => a.2 ≠ b.2)) := by
  have hnd : ord.Nodup := hperm.nodup_iff.2 (List.nodup_dedup _)
  rw [assignColorsWith_colors ord c hfresh hnd]
  refine ⟨?_, ?_, ?_⟩
  · rw [List.map_map]
    exact List.enum_map_snd ord
  · intro e he
    obtain ⟨ic, hic, rfl⟩ := List.mem_map.1 he
    have hlt : ic.1 % palette.length < palette.length :=
      Nat.mod_lt _ (by decide)
    have hmem : palette.getD (ic.1 % palette.length) (0, 0, 0, 0) ∈ palette := by
      rw [List.getD_eq_getElem _ _ hlt]
      exact List.getElem_mem hlt
    exact ⟨hmem, palette_alpha _ hmem⟩
  · intro hlen
    have hnodup : ((ord.enum.map
        (fun ic => (ic.2, palette.getD (ic.1 % palette.length) (0, 0, 0, 0)))).map
        Prod.snd).Nodup := by
      rw [List.map_map]
      have hcomp : (Prod.snd ∘ fun ic : ℕ × String =>
          (ic.2, palette.getD (ic.1 % palette.length) (0, 0, 0, 0))) =
          (fun i => palette.getD (i % palette.length) (0, 0, 0, 0)) ∘ Prod.fst := rfl
      rw [hcomp, ← List.map_map, List.enum_map_fst]
      apply List.Nodup.map_on ?_ (List.nodup_range _)
      intro x hx y hy hxy
      rw [List.mem_range] at hx hy
      have hp10 : palette.length = 10 := rfl
      have hx10 : x % palette.length = x := Nat.mod_eq_of_lt (by omega)
      have hy10 : y % palette.length = y := Nat.mod_eq_of_lt (by omega)
      rw [hx10, hy10] at hxy
      have hxl : x < palette.length := by omega
      have hyl : y < palette.length := by omega
      rw [List.getD_eq_getElem _ _ hxl, List.getD_eq_getElem _ _ hyl] at hxy
      have hpal : palette.Nodup := by decide
      exact (List.Nodup.getElem_inj_iff hpal).1 hxy
    have hpw : List.Pairwise (fun a b => a ≠ b)
        ((ord.enum.map
          (fun ic => (ic.2, palette.getD (ic.1 % palette.length) (0, 0, 0, 0)))).map
          Prod.snd) := hnodup
    rw [List.pairwise_map] at hpw
    exact hpw

theorem assign_colors_palette_witness :
    (List.Perm ["a", "b"] (childUnion collC9) ∧ collC9.colors = [] ∧
      (["a", "b"] : List String).length ≤ 10) ∧
    ((assignColorsWith ["a", "b"] collC9).colors.map Prod.fst = ["a", "b"] ∧
      (assignColorsWith ["a", "b"] collC9).colors.Pairwise (fun a b => a.2 ≠ b.2)) := by
  have h := assign_colors_palette collC9 ["a", "b"] (by decide) (by decide)
  exact ⟨⟨by decide, by decide, by decide⟩, h.1, h.2.2 (by decide)⟩

end SemFig
